import Mathlib

/-!
Verification of the session-reconstruction pipeline of
`generate_wg_report.py` (WireGuard connection report generator).

The Python source is shallowly embedded below:
* timestamps are modelled as integers (seconds); an offset-aware parsed
  timestamp keeps its local calendar date, local second-of-day and UTC
  offset, so that `datetime.date()` (the local calendar date) and the
  comparison key of aware datetimes (the UTC instant) are both available;
* the per-run `defaultdict` of peer states is an association list that
  preserves insertion order, as Python dicts do;
* `sys.exit(1)` paths are modelled with `Except`;
* output rows keep their numeric fields; a `none` in `sessionStart` or
  `endpointIP` marks exactly the places where the Python code would fall
  back to the literal string "N/A" (the falsy-`or` fallback for the
  endpoint, the `if start_time else` fallback for the start).
-/

namespace WgReport

/-- Offset-aware timestamp as parsed from an ISO-8601 string with an
embedded `+hh:mm` offset (src line 137): local calendar date (as a day
number), local second of day, and the embedded offset in minutes. -/
structure Timestamp where
  localDate : Int
  localSec : Int
  offsetMin : Int
deriving DecidableEq

/-- Python `timestamp_dt.date()`: the calendar date in the timestamp's own
embedded offset (src line 146 uses this for the date filter). -/
def dateOf (t : Timestamp) : Int := t.localDate

/-- Comparison key of an offset-aware `datetime`: the UTC instant, in
seconds.  Sorting log entries (src line 174) compares these. -/
def instantOf (t : Timestamp) : Int :=
  t.localDate * 86400 + t.localSec - t.offsetMin * 60

/-- One element of `log_entries` (src lines 154-160): dict with keys
`timestamp`, `event`, `peer_key`, `peer_name`, `endpoint`. -/
structure Entry where
  timestamp : Int
  event : String
  peer_key : String
  peer_name : String
  endpoint : String
deriving DecidableEq

/-- One output row (src lines 209-216 and 231-238).  Numeric fields are
kept unrendered; `isOngoing` distinguishes the two emission sites (the
ongoing row renders `SessionEnd` as `Ongoing (as of <watermark>)`), and
`peerKey` is the `_PeerKey` field present (commented out) at both emission
sites, kept here so sessions can be attributed to peers. -/
structure Session where
  peerName : String
  sessionStart : Option Int
  sessionEnd : Option Int
  duration : Option Int
  endpointIP : Option String
  isOngoing : Bool
  peerKey : String
deriving DecidableEq

/-- Per-peer mutable state (src line 177), one per `peer_key`. -/
structure PeerState where
  status : String
  session_start_time : Option Int
  session_start_ip : Option String
  current_name : String
deriving DecidableEq

/-- Default value produced by the `defaultdict` factory (src line 177). -/
def initialPeerState : PeerState :=
  { status := "disconnected"
    session_start_time := none
    session_start_ip := none
    current_name := "Unknown" }

/-- Python `x or "N/A"` on an optional string (src lines 214 and 236):
the fallback fires when the value is `None` or falsy (the empty string).
`none` in the result marks the fallback having fired. -/
def pyOr (o : Option String) : Option String :=
  match o with
  | some s => if s = "" then none else some s
  | none => none

/-- Characters of a string up to the first space: `str.split()[0]`. -/
def takeUntilSpace : List Char → List Char
  | [] => []
  | c :: cs => if c = ' ' then [] else c :: takeUntilSpace cs

/-- Python `event.split()[0]` (src line 156): the primary event
classifier, the first whitespace-delimited token. -/
def primaryEvent (s : String) : String :=
  String.mk (takeUntilSpace s.data)

/-- Test `entry["event"] in ["CONNECT", "RECONNECT/UPDATE"]` (src 190). -/
def isConnectEvent (ev : String) : Bool :=
  ev == "CONNECT" || ev == "RECONNECT/UPDATE"

/-- Test `entry["event"].startswith("DISCONNECT")` (src line 191). -/
def isDisconnectEvent (ev : String) : Bool :=
  "DISCONNECT".data.isPrefixOf ev.data

/-- Lookup in the PeerKey -> PeerName map (`peer_map`, a Python dict). -/
def lookupName : List (String × String) → String → Option String
  | [], _ => none
  | (k, v) :: rest, key => if k = key then some v else lookupName rest key

/-- Python `peer_map.get(key, name_from_log)` (src line 150): the map
name wins when the key is present, otherwise the embedded log name. -/
def resolveName (peer_map : List (String × String))
    (key name_from_log : String) : String :=
  (lookupName peer_map key).getD name_from_log

/-- Fields captured by `LOG_PATTERN` from one log line (src lines 16-22,
131): timestamp, raw event token, quoted peer name, peer key, endpoint. -/
structure ParsedLine where
  timestamp : Timestamp
  event : String
  name_from_log : String
  key : String
  endpoint : String
deriving DecidableEq

/-- Per-line filtering and resolution (src lines 145-160): drop the line
when its local calendar date is outside the inclusive range, resolve the
display name through the peer map, drop the line when a specific user is
requested and the resolved name differs, otherwise build the entry with
the primary event classifier and the UTC instant sort key. -/
def filterAndResolve (start_date_dt end_date_dt : Int) (user : String)
    (peer_map : List (String × String)) (pl : ParsedLine) : Option Entry :=
  if ¬ (start_date_dt ≤ dateOf pl.timestamp ∧ dateOf pl.timestamp ≤ end_date_dt) then
    none
  else
    if user ≠ "all" ∧ resolveName peer_map pl.key pl.name_from_log ≠ user then
      none
    else
      some { timestamp := instantOf pl.timestamp
             event := primaryEvent pl.event
             peer_key := pl.key
             peer_name := resolveName peer_map pl.key pl.name_from_log
             endpoint := pl.endpoint }

/-- Name-adoption update run on every event (src lines 186-188). -/
def nameUpd (st : PeerState) (e : Entry) : PeerState :=
  if e.peer_name ≠ "Unknown" then { st with current_name := e.peer_name } else st

/-- One iteration of the reconstruction loop for one entry (src lines
181-221), acting on that entry's peer state: name adoption, then the
CONNECT branch (only from `disconnected`), then the DISCONNECT branch
(emits a completed session only from `connected`). -/
def stepEntry (st0 : PeerState) (e : Entry) : PeerState × List Session :=
  let st := nameUpd st0 e
  if isConnectEvent e.event then
    if st.status = "disconnected" then
      ({ status := "connected"
         session_start_time := some e.timestamp
         session_start_ip := some e.endpoint
         current_name :=
           if st.current_name = "Unknown" ∧ e.peer_name ≠ "Unknown" then
             e.peer_name
           else st.current_name }, [])
    else (st, [])
  else if isDisconnectEvent e.event then
    if st.status = "connected" then
      ({ status := "disconnected"
         session_start_time := none
         session_start_ip := none
         current_name := st.current_name },
       [{ peerName := st.current_name
          sessionStart := st.session_start_time
          sessionEnd := some e.timestamp
          duration := st.session_start_time.map (fun s => e.timestamp - s)
          endpointIP := pyOr st.session_start_ip
          isOngoing := false
          peerKey := e.peer_key }])
    else (st, [])
  else (st, [])

/-- Insertion-ordered association list standing for the `peer_states`
dict (src line 177). -/
abbrev StateMap := List (String × PeerState)

/-- Python `peer_states[key]` read: present value, or the `defaultdict`
factory default. -/
def lookupState : StateMap → String → PeerState
  | [], _ => initialPeerState
  | (k, st) :: rest, key => if k = key then st else lookupState rest key

/-- Store a peer state back, replacing in place or appending at the end
(dict insertion order, as Python preserves it). -/
def setState : StateMap → String → PeerState → StateMap
  | [], key, st => [(key, st)]
  | (k, st0) :: rest, key, st =>
    if k = key then (key, st) :: rest else (k, st0) :: setState rest key st

/-- The main reconstruction loop (src lines 181-221) over the sorted
entry list, threading the peer-state map and collecting emitted
completed sessions in order. -/
def processEntries : StateMap → List Entry → StateMap × List Session
  | m, [] => (m, [])
  | m, e :: rest =>
    let p := stepEntry (lookupState m e.peer_key) e
    let r := processEntries (setState m e.peer_key p.1) rest
    (r.1, p.2 ++ r.2)

/-- Ongoing-session row for one still-connected peer (src 231-238). -/
def mkOngoing (key : String) (st : PeerState) (last_log_time : Option Int) : Session :=
  { peerName := st.current_name
    sessionStart := st.session_start_time
    sessionEnd := last_log_time
    duration :=
      match st.session_start_time, last_log_time with
      | some s, some e => some (e - s)
      | _, _ => none
    endpointIP := pyOr st.session_start_ip
    isOngoing := true
    peerKey := key }

/-- Finalization pass over `peer_states.items()` (src lines 225-238):
every peer left `connected` yields one ongoing session bounded by the
global watermark `last_log_time`. -/
def finalize (m : StateMap) (last_log_time : Option Int) : List Session :=
  m.filterMap (fun p =>
    if p.2.status = "connected" then some (mkOngoing p.1 p.2 last_log_time)
    else none)

/-- Stable insertion into a timestamp-sorted list: an element goes in
front of the first strictly-later-or-equal element, after every earlier
one, so equal timestamps keep their original relative order. -/
def insertEntry (x : Entry) : List Entry → List Entry
  | [] => [x]
  | y :: ys =>
    if x.timestamp ≤ y.timestamp then x :: y :: ys else y :: insertEntry x ys

/-- Stable sort by timestamp, Python `log_entries.sort(key=...)`
(src line 174). -/
def sortEntries : List Entry → List Entry
  | [] => []
  | x :: xs => insertEntry x (sortEntries xs)

/-- Session calculation from the filtered entry list (src lines 169-241):
empty input short-circuits to no sessions (line 171); otherwise sort,
take the global watermark from the last sorted entry (line 179), run the
reconstruction loop and append the ongoing sessions. -/
def calcSessions (log_entries : List Entry) : List Session :=
  if log_entries.isEmpty then []
  else
    let sorted := sortEntries log_entries
    let last_log_time := (sorted.getLast?).map (fun e => e.timestamp)
    let r := processEntries [] sorted
    r.2 ++ finalize r.1 last_log_time

/-- Outcome of trying to read one discovered log file (src 121-163):
either its parsed, filtered entries, or an open/decode failure that the
`except` swallows with a warning. -/
inductive FileResult where
  | ok : List Entry → FileResult
  | err : FileResult
deriving DecidableEq

/-- The per-file loop (src lines 121-163): failed files contribute
nothing and are not counted; successful files append their entries and
bump `processed_files`. -/
def readFiles : List FileResult → List Entry × Nat
  | [] => ([], 0)
  | FileResult.ok es :: rest => (es ++ (readFiles rest).1, (readFiles rest).2 + 1)
  | FileResult.err :: rest => readFiles rest

/-- Fatal diagnostic of src lines 165-167. -/
def noFilesMsg : String :=
  "Error: No log files found or processed matching pattern."

/-- File-scan phase outcome (src lines 121-167): `sys.exit(1)` when not a
single file was processed successfully, the gathered entries otherwise. -/
def gatherLogs (files : List FileResult) : Except String (List Entry) :=
  if (readFiles files).2 = 0 then Except.error noFilesMsg
  else Except.ok (readFiles files).1

/-- Default end date (src lines 71-74): given date, else `today`. -/
def resolveEndDate (end_date : Option Int) (today : Int) : Int :=
  end_date.getD today

/-- Default start date (src lines 76-79): given date, else
`end_date_dt - timedelta(days = days - 1)` ("N days including end
date").  Dates are day numbers. -/
def resolveStartDate (start_date : Option Int) (end_date_dt : Int)
    (days : Int) : Int :=
  start_date.getD (end_date_dt - (days - 1))

/-! Derived notions used by the statements. -/

/-- Timestamp-sortedness of an entry list. -/
def tsSorted (es : List Entry) : Prop :=
  es.Pairwise (fun a b => a.timestamp ≤ b.timestamp)

instance tsSortedDecidable (es : List Entry) : Decidable (tsSorted es) := by
  unfold tsSorted
  exact inferInstance

/-- Session interval start, for ordering statements. -/
def startVal (s : Session) : Int := s.sessionStart.getD 0

/-- Session interval end, for ordering statements. -/
def endVal (s : Session) : Int := s.sessionEnd.getD 0

/-- Start time recorded in a peer state, defaulted. -/
def pendStart (st : PeerState) : Int := st.session_start_time.getD 0

/-- Lower bound for starts of sessions a peer can still emit: its pending
start while connected, otherwise the current time lower bound. -/
def pendLB (st : PeerState) (hi : Int) : Int :=
  if st.status = "connected" then pendStart st else hi

/-- Connected states carry a start time no later than `hi`. -/
def okSt (st : PeerState) (hi : Int) : Prop :=
  st.status = "connected" → ∃ a, st.session_start_time = some a ∧ a ≤ hi

/-- Well-formedness: a connected state has an actual start time and a
non-falsy start endpoint. -/
def StateWF (st : PeerState) : Prop :=
  st.status = "connected" →
    (∃ t, st.session_start_time = some t) ∧
    (∃ ip, st.session_start_ip = some ip ∧ ip ≠ "")

/-- Name adoption as a function: the event name unless it is the
"Unknown" sentinel. -/
def adoptName (current incoming : String) : String :=
  if incoming = "Unknown" then current else incoming

/-- CONNECT entry of a single-peer alternating stream. -/
def connectE (k nm ep : String) (t : Int) : Entry :=
  { timestamp := t, event := "CONNECT", peer_key := k, peer_name := nm, endpoint := ep }

/-- DISCONNECT entry of a single-peer alternating stream. -/
def disconnectE (k nm ep : String) (t : Int) : Entry :=
  { timestamp := t, event := "DISCONNECT", peer_key := k, peer_name := nm, endpoint := ep }

/-- Alternating CONNECT/DISCONNECT stream for one peer, one pair of
events per element. -/
def alternating (k nm ep : String) : List (Int × Int) → List Entry
  | [] => []
  | (a, b) :: ps => connectE k nm ep a :: disconnectE k nm ep b :: alternating k nm ep ps

/-- The completed session a CONNECT/DISCONNECT pair should produce. -/
def pairSession (k nm ep : String) (p : Int × Int) : Session :=
  { peerName := nm
    sessionStart := some p.1
    sessionEnd := some p.2
    duration := some (p.2 - p.1)
    endpointIP := pyOr (some ep)
    isOngoing := false
    peerKey := k }

/-- Canonical form of the state written by the CONNECT branch of
`stepEntry` (src lines 193-201); proved equal to it below. -/
def connState (st : PeerState) (e : Entry) : PeerState :=
  { status := "connected"
    session_start_time := some e.timestamp
    session_start_ip := some e.endpoint
    current_name := adoptName st.current_name e.peer_name }

/-- Canonical form of the state written by the DISCONNECT branch of
`stepEntry` (src lines 217-220); proved equal to it below. -/
def discState (st : PeerState) (e : Entry) : PeerState :=
  { status := "disconnected"
    session_start_time := none
    session_start_ip := none
    current_name := adoptName st.current_name e.peer_name }

/-- Canonical form of the completed session emitted by the DISCONNECT
branch of `stepEntry` (src lines 209-216); proved equal to it below. -/
def discSession (st : PeerState) (e : Entry) : Session :=
  { peerName := adoptName st.current_name e.peer_name
    sessionStart := st.session_start_time
    sessionEnd := some e.timestamp
    duration := st.session_start_time.map (fun s => e.timestamp - s)
    endpointIP := pyOr st.session_start_ip
    isOngoing := false
    peerKey := e.peer_key }

/-- Completed session of one CONNECT/DISCONNECT pair when the peer's
stored name before the pair is `c`. -/
def pairSessionC (k nm ep c : String) (p : Int × Int) : Session :=
  { peerName := adoptName c nm
    sessionStart := some p.1
    sessionEnd := some p.2
    duration := some (p.2 - p.1)
    endpointIP := pyOr (some ep)
    isOngoing := false
    peerKey := k }

/-- Concrete events of the spec's name-adoption example: CONNECT at 1
with the sentinel name, DISCONNECT at 2 carrying "Alice". -/
def exC5connect : Entry :=
  { timestamp := 1, event := "CONNECT", peer_key := "K1", peer_name := "Unknown", endpoint := "10.0.0.1" }

/-- Second event of the name-adoption example. -/
def exC5disconnect : Entry :=
  { timestamp := 2, event := "DISCONNECT", peer_key := "K1", peer_name := "Alice", endpoint := "10.0.0.2" }

/-- Expected session of the name-adoption example. -/
def exC5session : Session :=
  { peerName := "Alice"
    sessionStart := some 1
    sessionEnd := some 2
    duration := some 1
    endpointIP := some "10.0.0.1"
    isOngoing := false
    peerKey := "K1" }

/-- Peer map of the spec's resolution example: key K declared as Bob. -/
def pmBob : List (String × String) := [("K", "Bob")]

/-- Log line fields of the resolution example: key K, embedded name Eve. -/
def plBobConn : ParsedLine :=
  { timestamp := { localDate := 0, localSec := 10, offsetMin := 0 }
    event := "CONNECT"
    name_from_log := "Eve"
    key := "K"
    endpoint := "9.9.9.9" }

/-- Matching disconnect line for the resolution example, with a
parenthesized qualifier on the event token. -/
def plBobDisc : ParsedLine :=
  { timestamp := { localDate := 0, localSec := 20, offsetMin := 0 }
    event := "DISCONNECT (Timeout)"
    name_from_log := "Eve"
    key := "K"
    endpoint := "9.9.9.9" }

/-! Basic lemmas about the name update and the step function. -/

@[simp]
theorem nameUpd_status (st : PeerState) (e : Entry) :
    (nameUpd st e).status = st.status := by
  unfold nameUpd; split <;> rfl

@[simp]
theorem nameUpd_start (st : PeerState) (e : Entry) :
    (nameUpd st e).session_start_time = st.session_start_time := by
  unfold nameUpd; split <;> rfl

@[simp]
theorem nameUpd_ip (st : PeerState) (e : Entry) :
    (nameUpd st e).session_start_ip = st.session_start_ip := by
  unfold nameUpd; split <;> rfl

@[simp]
theorem nameUpd_name (st : PeerState) (e : Entry) :
    (nameUpd st e).current_name = adoptName st.current_name e.peer_name := by
  unfold nameUpd adoptName
  by_cases h : e.peer_name = "Unknown" <;> simp [h]

theorem stepEntry_connect (st : PeerState) (e : Entry)
    (hc : isConnectEvent e.event = true) (hd : st.status = "disconnected") :
    stepEntry st e = (connState st e, []) := by
  unfold stepEntry connState
  by_cases h : e.peer_name = "Unknown" <;>
    simp [hc, nameUpd, adoptName, h, hd]

theorem stepEntry_connect_noop (st : PeerState) (e : Entry)
    (hc : isConnectEvent e.event = true) (hd : st.status ≠ "disconnected") :
    stepEntry st e = (nameUpd st e, []) := by
  unfold stepEntry
  simp [hc, hd]

theorem stepEntry_disconnect (st : PeerState) (e : Entry)
    (hc : isConnectEvent e.event = false) (hdc : isDisconnectEvent e.event = true)
    (hcon : st.status = "connected") :
    stepEntry st e = (discState st e, [discSession st e]) := by
  unfold stepEntry discState discSession
  simp [hc, hdc, hcon]

theorem stepEntry_disconnect_noop (st : PeerState) (e : Entry)
    (hc : isConnectEvent e.event = false) (hdc : isDisconnectEvent e.event = true)
    (hcon : st.status ≠ "connected") :
    stepEntry st e = (nameUpd st e, []) := by
  unfold stepEntry
  simp [hc, hdc, hcon]

theorem stepEntry_other (st : PeerState) (e : Entry)
    (hc : isConnectEvent e.event = false) (hdc : isDisconnectEvent e.event = false) :
    stepEntry st e = (nameUpd st e, []) := by
  unfold stepEntry
  simp [hc, hdc]

/-- Complete case analysis of one step of the reconstruction loop. -/
theorem stepEntry_split (st : PeerState) (e : Entry) :
    (isConnectEvent e.event = true ∧ st.status = "disconnected" ∧
      stepEntry st e = (connState st e, []))
    ∨ (isConnectEvent e.event = false ∧ isDisconnectEvent e.event = true ∧
        st.status = "connected" ∧
        stepEntry st e = (discState st e, [discSession st e]))
    ∨ stepEntry st e = (nameUpd st e, []) := by
  by_cases hc : isConnectEvent e.event = true
  · by_cases hd : st.status = "disconnected"
    · exact Or.inl ⟨hc, hd, stepEntry_connect st e hc hd⟩
    · exact Or.inr (Or.inr (stepEntry_connect_noop st e hc hd))
  · rw [Bool.not_eq_true] at hc
    by_cases hdc : isDisconnectEvent e.event = true
    · by_cases hcon : st.status = "connected"
      · exact Or.inr (Or.inl ⟨hc, hdc, hcon, stepEntry_disconnect st e hc hdc hcon⟩)
      · exact Or.inr (Or.inr (stepEntry_disconnect_noop st e hc hdc hcon))
    · rw [Bool.not_eq_true] at hdc
      exact Or.inr (Or.inr (stepEntry_other st e hc hdc))

/-- Every session emitted by one step carries the key of the entry that
caused it. -/
theorem stepEntry_out_key (st : PeerState) (e : Entry) :
    ∀ s ∈ (stepEntry st e).2, s.peerKey = e.peer_key := by
  intro s hs
  rcases stepEntry_split st e with ⟨_, _, h⟩ | ⟨_, _, _, h⟩ | h <;> rw [h] at hs
  · simp at hs
  · simp at hs
    rw [hs]
    rfl
  · simp at hs

/-- Sessions emitted inside the loop are completed, not ongoing. -/
theorem stepEntry_out_not_ongoing (st : PeerState) (e : Entry) :
    ∀ s ∈ (stepEntry st e).2, s.isOngoing = false := by
  intro s hs
  rcases stepEntry_split st e with ⟨_, _, h⟩ | ⟨_, _, _, h⟩ | h <;> rw [h] at hs
  · simp at hs
  · simp at hs
    rw [hs]
    rfl
  · simp at hs

/-! Lemmas about the insertion-ordered state map. -/

@[simp]
theorem lookupState_nil (k : String) : lookupState [] k = initialPeerState := rfl

theorem lookupState_set_self (m : StateMap) (k : String) (st : PeerState) :
    lookupState (setState m k st) k = st := by
  induction m with
  | nil => simp [setState, lookupState]
  | cons p rest ih =>
    obtain ⟨k0, st0⟩ := p
    by_cases h : k0 = k <;> simp [setState, lookupState, h, ih]

theorem lookupState_set_other (m : StateMap) (k0 k : String) (st : PeerState)
    (h : k0 ≠ k) : lookupState (setState m k0 st) k = lookupState m k := by
  induction m with
  | nil => simp [setState, lookupState, h]
  | cons p rest ih =>
    obtain ⟨k1, st1⟩ := p
    by_cases h1 : k1 = k0
    · subst h1
      simp [setState, lookupState, h]
    · by_cases h2 : k1 = k
      · subst h2
        have h3 : ¬ k1 = k0 := h1
        simp [setState, lookupState, h3]
      · simp [setState, lookupState, h1, h2, ih]

theorem setState_setState (m : StateMap) (k : String) (a b : PeerState) :
    setState (setState m k a) k b = setState m k b := by
  induction m with
  | nil => simp [setState]
  | cons p rest ih =>
    obtain ⟨k1, st1⟩ := p
    by_cases h : k1 = k <;> simp [setState, h, ih]

theorem mem_setState (m : StateMap) (k : String) (st : PeerState) :
    ∀ p ∈ setState m k st, p = (k, st) ∨ p ∈ m := by
  induction m with
  | nil => simp [setState]
  | cons q rest ih =>
    obtain ⟨k1, st1⟩ := q
    intro p hp
    by_cases h : k1 = k
    · simp [setState, h] at hp
      rcases hp with hp | hp
      · exact Or.inl (by rw [hp])
      · exact Or.inr (List.mem_cons_of_mem _ hp)
    · simp [setState, h] at hp
      rcases hp with hp | hp
      · exact Or.inr (by simp [hp])
      · rcases ih p hp with h1 | h1
        · exact Or.inl h1
        · exact Or.inr (List.mem_cons_of_mem _ h1)

theorem keys_setState (m : StateMap) (k : String) (st : PeerState) :
    (setState m k st).map Prod.fst =
      if k ∈ m.map Prod.fst then m.map Prod.fst else m.map Prod.fst ++ [k] := by
  induction m with
  | nil => simp [setState]
  | cons q rest ih =>
    obtain ⟨k1, st1⟩ := q
    by_cases h : k1 = k
    · subst h
      simp [setState]
    · have hne : ¬ k = k1 := fun hh => h hh.symm
      by_cases hmem : k ∈ rest.map Prod.fst <;>
        simp [setState, h, hne, hmem, ih]

theorem keys_nodup_setState (m : StateMap) (k : String) (st : PeerState)
    (hnd : (m.map Prod.fst).Nodup) :
    ((setState m k st).map Prod.fst).Nodup := by
  rw [keys_setState]
  by_cases hmem : k ∈ m.map Prod.fst
  · simp [hmem, hnd]
  · rw [if_neg hmem, List.nodup_append]
    refine ⟨hnd, List.nodup_singleton k, ?_⟩
    intro a ha hak
    simp at hak
    subst hak
    exact hmem ha

theorem lookupState_eq_of_mem (m : StateMap) (p : String × PeerState)
    (hnd : (m.map Prod.fst).Nodup) (hp : p ∈ m) : lookupState m p.1 = p.2 := by
  induction m with
  | nil => simp at hp
  | cons q rest ih =>
    obtain ⟨k1, st1⟩ := q
    rw [List.map_cons, List.nodup_cons] at hnd
    rcases List.mem_cons.mp hp with hq | hq
    · subst hq
      simp [lookupState]
    · have hkey : p.1 ∈ rest.map Prod.fst := List.mem_map_of_mem Prod.fst hq
      have hne : ¬ k1 = p.1 := fun hh => hnd.1 (hh ▸ hkey)
      simp [lookupState, hne]
      exact ih hnd.2 hq

/-! Lemmas about the main loop. -/

@[simp]
theorem processEntries_nil (m : StateMap) : processEntries m [] = (m, []) := rfl

theorem processEntries_cons (m : StateMap) (e : Entry) (rest : List Entry) :
    processEntries m (e :: rest) =
      ((processEntries (setState m e.peer_key (stepEntry (lookupState m e.peer_key) e).1) rest).1,
       (stepEntry (lookupState m e.peer_key) e).2 ++
         (processEntries (setState m e.peer_key (stepEntry (lookupState m e.peer_key) e).1) rest).2) := rfl

/-- Every state in the map after the loop either was there initially or
was written by some step. -/
theorem processEntries_mem_map (m : StateMap) (es : List Entry) :
    ∀ p ∈ (processEntries m es).1,
      p ∈ m ∨ ∃ st e, e ∈ es ∧ p = (e.peer_key, (stepEntry st e).1) := by
  induction es generalizing m with
  | nil => intro p hp; exact Or.inl hp
  | cons e rest ih =>
    intro p hp
    rw [processEntries_cons] at hp
    rcases ih _ p hp with hp1 | hp1
    · rcases mem_setState _ _ _ p hp1 with hp2 | hp2
      · exact Or.inr ⟨lookupState m e.peer_key, e, List.mem_cons_self e rest, hp2⟩
      · exact Or.inl hp2
    · obtain ⟨st, e2, he2, hpe⟩ := hp1
      exact Or.inr ⟨st, e2, List.mem_cons_of_mem _ he2, hpe⟩

/-- Keys stay duplicate-free through the loop. -/
theorem processEntries_keys_nodup (m : StateMap) (es : List Entry)
    (hnd : (m.map Prod.fst).Nodup) :
    (((processEntries m es).1).map Prod.fst).Nodup := by
  induction es generalizing m with
  | nil => simpa using hnd
  | cons e rest ih =>
    rw [processEntries_cons]
    exact ih _ (keys_nodup_setState _ _ _ hnd)

/-- Sessions collected by the loop all come from some step. -/
theorem processEntries_out_mem (m : StateMap) (es : List Entry) :
    ∀ s ∈ (processEntries m es).2,
      ∃ st e, e ∈ es ∧ s ∈ (stepEntry st e).2 := by
  induction es generalizing m with
  | nil => simp
  | cons e rest ih =>
    intro s hs
    rw [processEntries_cons] at hs
    rcases List.mem_append.mp hs with hs1 | hs1
    · exact ⟨lookupState m e.peer_key, e, List.mem_cons_self e rest, hs1⟩
    · obtain ⟨st, e2, he2, hse⟩ := ih _ s hs1
      exact ⟨st, e2, List.mem_cons_of_mem _ he2, hse⟩

/-- Sessions collected by the loop are completed, not ongoing. -/
theorem processEntries_out_not_ongoing (m : StateMap) (es : List Entry) :
    ∀ s ∈ (processEntries m es).2, s.isOngoing = false := by
  intro s hs
  obtain ⟨st, e, _, hse⟩ := processEntries_out_mem m es s hs
  exact stepEntry_out_not_ongoing st e s hse

/-! Lemmas about the stable sort. -/

theorem mem_insertEntry (x a : Entry) (l : List Entry) :
    a ∈ insertEntry x l ↔ a = x ∨ a ∈ l := by
  induction l with
  | nil => simp [insertEntry]
  | cons y ys ih =>
    by_cases h : x.timestamp ≤ y.timestamp
    · simp [insertEntry, h]
    · simp [insertEntry, h, ih]
      tauto

theorem mem_sortEntries (a : Entry) (l : List Entry) :
    a ∈ sortEntries l ↔ a ∈ l := by
  induction l with
  | nil => simp [sortEntries]
  | cons x xs ih =>
    simp [sortEntries, mem_insertEntry, ih]

theorem sortEntries_eq_of_sorted (l : List Entry) (h : tsSorted l) :
    sortEntries l = l := by
  induction l with
  | nil => rfl
  | cons x xs ih =>
    unfold tsSorted at h
    rw [List.pairwise_cons] at h
    have hxs : sortEntries xs = xs := ih h.2
    unfold sortEntries
    rw [hxs]
    cases xs with
    | nil => rfl
    | cons y ys =>
      unfold insertEntry
      rw [if_pos (h.1 y (List.mem_cons_self y ys))]

/-- Generic membership fact for `getLast?`. -/
theorem mem_of_getLast?_eq {α : Type} : ∀ {l : List α} {x : α},
    l.getLast? = some x → x ∈ l := by
  intro l
  induction l with
  | nil => intro x h; simp at h
  | cons a t ih =>
    intro x h
    cases t with
    | nil =>
      simp at h
      simp [h]
    | cons b t2 =>
      rw [List.getLast?_cons_cons] at h
      exact List.mem_cons_of_mem _ (ih h)

/-- In a sorted entry list, the last element bounds every timestamp. -/
theorem timestamp_le_getLast (l : List Entry) (x : Entry) (h : tsSorted l)
    (hl : l.getLast? = some x) : ∀ e ∈ l, e.timestamp ≤ x.timestamp := by
  induction l with
  | nil => simp at hl
  | cons a t ih =>
    unfold tsSorted at h
    rw [List.pairwise_cons] at h
    intro e he
    cases t with
    | nil =>
      simp at hl he
      rw [he, hl]
    | cons b t2 =>
      rw [List.getLast?_cons_cons] at hl
      rcases List.mem_cons.mp he with he1 | he1
      · have hx : x ∈ b :: t2 := mem_of_getLast?_eq hl
        rw [he1]
        exact h.1 x hx
      · exact ih h.2 hl e he1

/-! Lemmas about finalization. -/

/-- Characterization of membership in the finalization output. -/
theorem mem_finalize (m : StateMap) (w : Option Int) (s : Session) :
    s ∈ finalize m w ↔
      ∃ p ∈ m, p.2.status = "connected" ∧ s = mkOngoing p.1 p.2 w := by
  unfold finalize
  rw [List.mem_filterMap]
  constructor
  · rintro ⟨p, hp, hps⟩
    by_cases h : p.2.status = "connected"
    · rw [if_pos h] at hps
      exact ⟨p, hp, h, (Option.some_inj.mp hps).symm⟩
    · rw [if_neg h] at hps
      exact absurd hps (by simp)
  · rintro ⟨p, hp, hcon, hs⟩
    exact ⟨p, hp, by rw [if_pos hcon, hs]⟩

/-- Finalization of a map with no connected peer yields nothing. -/
theorem finalize_eq_nil (m : StateMap) (w : Option Int)
    (h : ∀ p ∈ m, p.2.status ≠ "connected") : finalize m w = [] := by
  unfold finalize
  rw [List.filterMap_eq_nil_iff]
  intro p hp
  rw [if_neg (h p hp)]

@[simp]
theorem mkOngoing_isOngoing (k : String) (st : PeerState) (w : Option Int) :
    (mkOngoing k st w).isOngoing = true := rfl

@[simp]
theorem mkOngoing_sessionEnd (k : String) (st : PeerState) (w : Option Int) :
    (mkOngoing k st w).sessionEnd = w := rfl

@[simp]
theorem mkOngoing_peerKey (k : String) (st : PeerState) (w : Option Int) :
    (mkOngoing k st w).peerKey = k := rfl

/-- Unfolded form of `calcSessions` on a non-empty entry list. -/
theorem calcSessions_eq (es : List Entry) (h : es ≠ []) :
    calcSessions es =
      (processEntries [] (sortEntries es)).2 ++
        finalize (processEntries [] (sortEntries es)).1
          (Option.map (fun e => e.timestamp) ((sortEntries es).getLast?)) := by
  unfold calcSessions
  rw [if_neg (by cases es with | nil => exact absurd rfl h | cons a t => simp)]

/-- Every session produced by finalization carries a key of the map. -/
theorem finalize_keys (m : StateMap) (w : Option Int) :
    ∀ s ∈ finalize m w, s.peerKey ∈ m.map Prod.fst := by
  intro s hs
  obtain ⟨p, hp, _, hsp⟩ := (mem_finalize m w s).mp hs
  rw [hsp, mkOngoing_peerKey]
  exact List.mem_map_of_mem Prod.fst hp

/-! Lemmas on names and adoption. -/

theorem adoptName_unknown (nm : String) : adoptName "Unknown" nm = nm := by
  unfold adoptName
  by_cases h : nm = "Unknown" <;> simp [h]

theorem adoptName_idem (c nm : String) :
    adoptName (adoptName c nm) nm = adoptName c nm := by
  unfold adoptName
  by_cases h : nm = "Unknown" <;> simp [h]

theorem adoptName_ne_unknown (c nm : String) (h : c ≠ "Unknown") :
    adoptName c nm ≠ "Unknown" := by
  unfold adoptName
  split
  · exact h
  · assumption

theorem adoptName_of_known (c nm : String) (h : nm ≠ "Unknown") :
    adoptName c nm = nm := by
  unfold adoptName
  rw [if_neg h]

/-- The state after any step carries the adopted name. -/
theorem stepEntry_state_name (st : PeerState) (e : Entry) :
    ((stepEntry st e).1).current_name = adoptName st.current_name e.peer_name := by
  rcases stepEntry_split st e with ⟨_, _, h⟩ | ⟨_, _, _, h⟩ | h <;> rw [h]
  · rfl
  · rfl
  · simp

/-! Event-class facts. -/

theorem isConnectEvent_iff (ev : String) :
    isConnectEvent ev = true ↔ ev = "CONNECT" ∨ ev = "RECONNECT/UPDATE" := by
  simp [isConnectEvent]

theorem disconnect_not_connect (ev : String) (h : isDisconnectEvent ev = true) :
    isConnectEvent ev = false := by
  cases hc : isConnectEvent ev
  · rfl
  · rcases (isConnectEvent_iff ev).mp hc with h1 | h1 <;>
      rw [h1] at h <;> exact absurd h (by decide)

/-! Status propagation helpers. -/

theorem lookupState_status_disc (m : StateMap) (k : String)
    (hm : ∀ p ∈ m, p.2.status = "disconnected") :
    (lookupState m k).status = "disconnected" := by
  induction m with
  | nil => rfl
  | cons q rest ih =>
    obtain ⟨k1, st1⟩ := q
    by_cases h : k1 = k
    · simpa [lookupState, h] using hm (k1, st1) (List.mem_cons_self _ _)
    · simp only [lookupState, if_neg h]
      exact ih (fun p hp => hm p (List.mem_cons_of_mem _ hp))

/-- A stream of DISCONNECT-class events over an all-disconnected map
emits nothing and leaves every peer disconnected. -/
theorem processEntries_all_disc (es : List Entry) :
    ∀ (m : StateMap), (∀ p ∈ m, p.2.status = "disconnected") →
      (∀ e ∈ es, isDisconnectEvent e.event = true) →
      (processEntries m es).2 = [] ∧
      ∀ p ∈ (processEntries m es).1, p.2.status = "disconnected" := by
  induction es with
  | nil => intro m hm _; exact ⟨rfl, hm⟩
  | cons e rest ih =>
    intro m hm hes
    have hde := hes e (List.mem_cons_self _ _)
    have hce := disconnect_not_connect _ hde
    have hst : (lookupState m e.peer_key).status = "disconnected" :=
      lookupState_status_disc m _ hm
    have hnc : (lookupState m e.peer_key).status ≠ "connected" := by
      rw [hst]; decide
    rw [processEntries_cons, stepEntry_disconnect_noop _ _ hce hde hnc]
    have hm2 : ∀ p ∈ setState m e.peer_key (nameUpd (lookupState m e.peer_key) e),
        p.2.status = "disconnected" := by
      intro p hp
      rcases mem_setState _ _ _ p hp with hp1 | hp1
      · rw [hp1]
        simpa using hst
      · exact hm p hp1
    obtain ⟨ha, hb⟩ := ih _ hm2 (fun e2 he2 => hes e2 (List.mem_cons_of_mem _ he2))
    exact ⟨by simpa using ha, hb⟩

/-! Claim C3.  The spec says the default start date is the end date minus
N days; the code computes end minus (N - 1) so that the inclusive range
spans exactly N calendar days (its own comment: "N days including end
date"). -/

/-- C3 counterexample: with the default days-back value 3 and end date
(day) 10, the resolved default start date is 8, not 10 - 3 = 7. -/
theorem wg_C3_counterexample : ¬ (resolveStartDate none 10 3 = 10 - 3) := by
  decide

/-- C3 (amended): when no start date is supplied, the resolved default
start date equals the resolved end date minus (N - 1) days, so the
inclusive [start, end] range spans exactly N calendar days. -/
theorem wg_C3 : ∀ (end_date_dt days : Int),
    resolveStartDate none end_date_dt days = end_date_dt - (days - 1) ∧
    end_date_dt - resolveStartDate none end_date_dt days + 1 = days := by
  intro e d
  unfold resolveStartDate
  constructor
  · rfl
  · simp only [Option.getD_none]
    ring

/-! Claim C4.  A failing file is skipped and later files still process,
but when every discovered file fails the run is fatal (src 165-167). -/

theorem readFiles_processed_pos (files : List FileResult)
    (h : ∃ es, FileResult.ok es ∈ files) : (readFiles files).2 ≠ 0 := by
  induction files with
  | nil => simp at h
  | cons f rest ih =>
    obtain ⟨es, hes⟩ := h
    cases f with
    | ok es2 => simp [readFiles]
    | err =>
      have : FileResult.ok es ∈ rest := by
        rcases List.mem_cons.mp hes with h1 | h1
        · exact absurd h1 (by simp)
        · exact h1
      simpa [readFiles] using ih ⟨es, this⟩

/-- C4 counterexample: a run with exactly one discovered file, which
fails, terminates fatally rather than continuing. -/
theorem wg_C4_counterexample :
    gatherLogs [FileResult.err] = Except.error noFilesMsg := rfl

/-- C4 (amended): a file that cannot be opened or decoded is skipped and
contributes nothing, and subsequent files are still processed; the run
terminates fatally only when no discovered file at all was processed
successfully — whenever at least one file succeeds, the run survives. -/
theorem wg_C4 :
    (∀ rest : List FileResult,
        readFiles (FileResult.err :: rest) = readFiles rest) ∧
    (∀ files : List FileResult, (∃ es, FileResult.ok es ∈ files) →
        gatherLogs files = Except.ok (readFiles files).1) := by
  constructor
  · intro rest
    rfl
  · intro files h
    unfold gatherLogs
    rw [if_neg (readFiles_processed_pos files h)]

theorem wg_C4_witness :
    gatherLogs [FileResult.err, FileResult.ok [], FileResult.err] =
      Except.ok (readFiles [FileResult.err, FileResult.ok [], FileResult.err]).1 :=
  wg_C4.2 _ ⟨[], by decide⟩

/-! Claim C5.  Name adoption on every event, monotone, example. -/

theorem stepEntry_name_of_known (st : PeerState) (e : Entry)
    (h : e.peer_name ≠ "Unknown") :
    ((stepEntry st e).1).current_name = e.peer_name := by
  rw [stepEntry_state_name]
  exact adoptName_of_known _ _ h

theorem stepEntry_name_mono (st : PeerState) (e : Entry)
    (h : st.current_name ≠ "Unknown") :
    ((stepEntry st e).1).current_name ≠ "Unknown" := by
  rw [stepEntry_state_name]
  exact adoptName_ne_unknown _ _ h

/-- C5: on every event whose resolved name is not "Unknown" the stored
display name becomes that name, regardless of connection state; a stored
non-"Unknown" name never regresses to "Unknown"; and on the stream
CONNECT@1 with name "Unknown" followed by DISCONNECT@2 with name
"Alice", the emitted session's peer name is "Alice". -/
theorem wg_C5 :
    (∀ (st : PeerState) (e : Entry), e.peer_name ≠ "Unknown" →
        ((stepEntry st e).1).current_name = e.peer_name) ∧
    (∀ (st : PeerState) (e : Entry), st.current_name ≠ "Unknown" →
        ((stepEntry st e).1).current_name ≠ "Unknown") ∧
    calcSessions [exC5connect, exC5disconnect] = [exC5session] := by
  refine ⟨stepEntry_name_of_known, stepEntry_name_mono, ?_⟩
  decide

theorem wg_C5_witness :
    exC5disconnect.peer_name ≠ "Unknown" ∧
    ((stepEntry initialPeerState exC5disconnect).1).current_name =
      exC5disconnect.peer_name :=
  ⟨by decide, wg_C5.1 initialPeerState exC5disconnect (by decide)⟩

/-! Claim C6.  Per-event name resolution: map wins, hint is fallback. -/

theorem filterAndResolve_peer_name (s e : Int) (u : String)
    (pm : List (String × String)) (pl : ParsedLine) (ent : Entry)
    (h : filterAndResolve s e u pm pl = some ent) :
    ent.peer_name = resolveName pm pl.key pl.name_from_log := by
  unfold filterAndResolve at h
  split at h
  · exact absurd h (by simp)
  · split at h
    · exact absurd h (by simp)
    · cases Option.some_inj.mp h
      rfl

/-- C6: resolution returns the peer map's name whenever the key is
present (ignoring the embedded name) and the embedded name hint
otherwise; the resolved name is what the peer filter tests and what the
built entries and emitted report rows carry (spec example: map K→Bob,
line name Eve, resolved name Bob). -/
theorem wg_C6 :
    (∀ (pm : List (String × String)) (k v nm : String),
        lookupName pm k = some v → resolveName pm k nm = v) ∧
    (∀ (pm : List (String × String)) (k nm : String),
        lookupName pm k = none → resolveName pm k nm = nm) ∧
    (∀ (s e : Int) (u : String) (pm : List (String × String))
        (pl : ParsedLine) (ent : Entry),
        filterAndResolve s e u pm pl = some ent →
        ent.peer_name = resolveName pm pl.key pl.name_from_log) ∧
    ((filterAndResolve 0 0 "Bob" pmBob plBobConn).map (fun ent => ent.peer_name)
        = some "Bob") ∧
    filterAndResolve 0 0 "Eve" pmBob plBobConn = none ∧
    ((calcSessions ((filterAndResolve 0 0 "Bob" pmBob plBobConn).toList ++
          (filterAndResolve 0 0 "Bob" pmBob plBobDisc).toList)).map
        (fun s => s.peerName) = ["Bob"]) := by
  refine ⟨?_, ?_, filterAndResolve_peer_name, by decide, by decide, by decide⟩
  · intro pm k v nm h
    unfold resolveName
    rw [h]
    rfl
  · intro pm k nm h
    unfold resolveName
    rw [h]
    rfl

theorem wg_C6_witness :
    lookupName pmBob "K" = some "Bob" ∧ resolveName pmBob "K" "Eve" = "Bob" :=
  ⟨by decide, wg_C6.1 pmBob "K" "Bob" "Eve" (by decide)⟩

/-! Claim C7.  Inclusive calendar-date filter in the timestamp's own
embedded offset. -/

/-- C7: with the "all" peer selector, an event passes the filter exactly
when its own-offset calendar date lies in [start, end]; in particular an
event at 23:59:59 local time of the end date passes and an event at
00:00:00 local time of the next day is dropped, for every embedded
offset. -/
theorem wg_C7 :
    (∀ (s e : Int) (pm : List (String × String)) (pl : ParsedLine),
        (filterAndResolve s e "all" pm pl).isSome = true ↔
          s ≤ dateOf pl.timestamp ∧ dateOf pl.timestamp ≤ e) ∧
    (∀ (s e off : Int) (pm : List (String × String)) (evs nm k ep : String),
        s ≤ e →
        (filterAndResolve s e "all" pm
            { timestamp := { localDate := e, localSec := 86399, offsetMin := off }
              event := evs, name_from_log := nm, key := k, endpoint := ep }).isSome = true ∧
        filterAndResolve s e "all" pm
            { timestamp := { localDate := e + 1, localSec := 0, offsetMin := off }
              event := evs, name_from_log := nm, key := k, endpoint := ep } = none) := by
  constructor
  · intro s e pm pl
    by_cases hr : s ≤ dateOf pl.timestamp ∧ dateOf pl.timestamp ≤ e <;>
      simp [filterAndResolve, hr]
  · intro s e off pm evs nm k ep hse
    constructor
    · simp [filterAndResolve, dateOf, hse]
    · have hlt : ¬ (e + 1 ≤ e) := by omega
      simp [filterAndResolve, dateOf, hlt]

theorem wg_C7_witness :
    (0 : Int) ≤ 5 ∧
    ((filterAndResolve 0 5 "all" []
        { timestamp := { localDate := 5, localSec := 86399, offsetMin := 480 }
          event := "CONNECT", name_from_log := "n", key := "k", endpoint := "e" }).isSome = true ∧
      filterAndResolve 0 5 "all" []
        { timestamp := { localDate := 6, localSec := 0, offsetMin := 480 }
          event := "CONNECT", name_from_log := "n", key := "k", endpoint := "e" } = none) :=
  ⟨by decide, wg_C7.2 0 5 480 [] "CONNECT" "n" "k" "e" (by decide)⟩

/-! Claim C8.  DISCONNECT with no preceding CONNECT. -/

/-- C8: a DISCONNECT-class event arriving while the peer is in the
"disconnected" state emits nothing and leaves status and session-start
fields unchanged, and a stream consisting only of DISCONNECT-class
events produces no sessions at all (and no error). -/
theorem wg_C8 :
    (∀ (st : PeerState) (e : Entry), st.status = "disconnected" →
        isDisconnectEvent e.event = true →
        (stepEntry st e).2 = [] ∧ ((stepEntry st e).1).status = st.status ∧
        ((stepEntry st e).1).session_start_time = st.session_start_time ∧
        ((stepEntry st e).1).session_start_ip = st.session_start_ip) ∧
    (∀ es : List Entry, (∀ e ∈ es, isDisconnectEvent e.event = true) →
        calcSessions es = []) := by
  constructor
  · intro st e hd hde
    have hce := disconnect_not_connect _ hde
    have hnc : st.status ≠ "connected" := by rw [hd]; decide
    rw [stepEntry_disconnect_noop st e hce hde hnc]
    simp
  · intro es hes
    cases hs : es with
    | nil => rfl
    | cons e0 es2 =>
      rw [← hs]
      rw [calcSessions_eq es (by rw [hs]; exact List.cons_ne_nil e0 es2)]
      obtain ⟨ha, hb⟩ := processEntries_all_disc (sortEntries es) []
        (by simp)
        (fun e2 he2 => hes e2 ((mem_sortEntries e2 es).mp he2))
      rw [ha, finalize_eq_nil _ _ (fun p hp => by rw [hb p hp]; decide)]
      rfl

/-! Claim C1.  Alternating CONNECT/DISCONNECT pairs for one peer. -/

@[simp]
theorem lookupState_singleton (k : String) (st : PeerState) :
    lookupState [(k, st)] k = st := by
  simp [lookupState]

theorem setState_singleton (k : String) (st st2 : PeerState) :
    setState [(k, st)] k st2 = [(k, st2)] := by
  simp [setState]

/-- Processing one CONNECT/DISCONNECT pair from a disconnected state
emits exactly the pair's completed session and returns the peer to a
disconnected state with the adopted name. -/
theorem processEntries_pair (m : StateMap) (k nm ep c : String) (a b : Int)
    (rest : List Entry)
    (hlook : lookupState m k = (⟨"disconnected", none, none, c⟩ : PeerState)) :
    processEntries m (connectE k nm ep a :: disconnectE k nm ep b :: rest) =
      ((processEntries
          (setState m k (⟨"disconnected", none, none, adoptName c nm⟩ : PeerState)) rest).1,
       pairSessionC k nm ep c (a, b) ::
         (processEntries
           (setState m k (⟨"disconnected", none, none, adoptName c nm⟩ : PeerState)) rest).2) := by
  have hpk1 : (connectE k nm ep a).peer_key = k := rfl
  have hc1 : isConnectEvent (connectE k nm ep a).event = true := by
    show isConnectEvent "CONNECT" = true
    decide
  have hc2 : isConnectEvent (disconnectE k nm ep b).event = false := by
    show isConnectEvent "DISCONNECT" = false
    decide
  have hc3 : isDisconnectEvent (disconnectE k nm ep b).event = true := by
    show isDisconnectEvent "DISCONNECT" = true
    decide
  have hstep1 : stepEntry (⟨"disconnected", none, none, c⟩ : PeerState) (connectE k nm ep a) =
      ((⟨"connected", some a, some ep, adoptName c nm⟩ : PeerState), []) := by
    rw [stepEntry_connect _ _ hc1 rfl]
    rfl
  have hpk2 : (disconnectE k nm ep b).peer_key = k := rfl
  have hstep2 : stepEntry (⟨"connected", some a, some ep, adoptName c nm⟩ : PeerState)
      (disconnectE k nm ep b) =
      ((⟨"disconnected", none, none, adoptName c nm⟩ : PeerState),
       [pairSessionC k nm ep c (a, b)]) := by
    rw [stepEntry_disconnect _ _ hc2 hc3 rfl]
    simp [discState, discSession, pairSessionC, adoptName_idem, connectE, disconnectE]
  rw [processEntries_cons, hpk1, hlook, hstep1]
  dsimp only
  rw [processEntries_cons, hpk2, lookupState_set_self, hstep2]
  dsimp only
  rw [setState_setState]
  rfl

theorem alternating_sessions (k nm ep : String) :
    ∀ (ps : List (Int × Int)) (m : StateMap) (c : String),
      lookupState m k = (⟨"disconnected", none, none, c⟩ : PeerState) →
      (processEntries m (alternating k nm ep ps)).2 =
        ps.map (pairSessionC k nm ep c) := by
  intro ps
  induction ps with
  | nil =>
    intro m c _
    rfl
  | cons p ps2 ih =>
    obtain ⟨a, b⟩ := p
    intro m c hlook
    rw [show alternating k nm ep ((a, b) :: ps2) =
        connectE k nm ep a :: disconnectE k nm ep b :: alternating k nm ep ps2 from rfl]
    rw [processEntries_pair m k nm ep c a b _ hlook]
    dsimp only
    rw [ih _ (adoptName c nm) (lookupState_set_self m k _)]
    have hfun : pairSessionC k nm ep (adoptName c nm) = pairSessionC k nm ep c := by
      funext q
      unfold pairSessionC
      rw [adoptName_idem]
    rw [hfun]
    rfl

theorem alternating_state (k nm ep : String) :
    ∀ (ps : List (Int × Int)) (m : StateMap) (c : String),
      lookupState m k = (⟨"disconnected", none, none, c⟩ : PeerState) →
      ∀ p ∈ (processEntries m (alternating k nm ep ps)).1,
        p ∈ m ∨ p.2.status = "disconnected" := by
  intro ps
  induction ps with
  | nil =>
    intro m c _ p hp
    exact Or.inl hp
  | cons q ps2 ih =>
    obtain ⟨a, b⟩ := q
    intro m c hlook p hp
    rw [show alternating k nm ep ((a, b) :: ps2) =
        connectE k nm ep a :: disconnectE k nm ep b :: alternating k nm ep ps2 from rfl] at hp
    rw [processEntries_pair m k nm ep c a b _ hlook] at hp
    dsimp only at hp
    rcases ih _ (adoptName c nm) (lookupState_set_self m k _) p hp with h1 | h1
    · rcases mem_setState _ _ _ p h1 with h2 | h2
      · rw [h2]
        exact Or.inr rfl
      · exact Or.inl h2
    · exact Or.inr h1

/-- C1: for a timestamp-ordered alternating CONNECT/DISCONNECT stream of
one peer, reconstruction emits exactly one completed session per pair,
bounded by the pair's CONNECT and DISCONNECT timestamps (and no ongoing
session); and a CONNECT arriving while the peer is already connected
emits nothing and leaves status and session boundaries unchanged. -/
theorem wg_C1 :
    (∀ (k nm ep : String) (ps : List (Int × Int)),
        tsSorted (alternating k nm ep ps) →
        calcSessions (alternating k nm ep ps) = ps.map (pairSession k nm ep)) ∧
    (∀ (st : PeerState) (e : Entry), st.status = "connected" →
        isConnectEvent e.event = true →
        (stepEntry st e).2 = [] ∧ ((stepEntry st e).1).status = st.status ∧
        ((stepEntry st e).1).session_start_time = st.session_start_time ∧
        ((stepEntry st e).1).session_start_ip = st.session_start_ip) := by
  constructor
  · intro k nm ep ps hsorted
    cases ps with
    | nil => rfl
    | cons p ps2 =>
      obtain ⟨a, b⟩ := p
      have hne : alternating k nm ep ((a, b) :: ps2) ≠ [] := by
        rw [show alternating k nm ep ((a, b) :: ps2) =
            connectE k nm ep a :: disconnectE k nm ep b :: alternating k nm ep ps2 from rfl]
        exact List.cons_ne_nil _ _
      rw [calcSessions_eq _ hne, sortEntries_eq_of_sorted _ hsorted]
      have hlook : lookupState [] k =
          (⟨"disconnected", none, none, "Unknown"⟩ : PeerState) := rfl
      rw [alternating_sessions k nm ep ((a, b) :: ps2) [] "Unknown" hlook]
      rw [finalize_eq_nil _ _ (fun p hp => by
        rcases alternating_state k nm ep ((a, b) :: ps2) [] "Unknown" hlook p hp with h1 | h1
        · simp at h1
        · rw [h1]; decide)]
      rw [List.append_nil]
      have hfun : pairSessionC k nm ep "Unknown" = pairSession k nm ep := by
        funext q
        unfold pairSessionC pairSession
        rw [adoptName_unknown]
      rw [hfun]
  · intro st e hcon hc
    have hd : st.status ≠ "disconnected" := by rw [hcon]; decide
    rw [stepEntry_connect_noop st e hc hd]
    simp

theorem wg_C1_witness :
    tsSorted (alternating "K" "A" "1.2.3.4" [(1, 2), (3, 4)]) ∧
    calcSessions (alternating "K" "A" "1.2.3.4" [(1, 2), (3, 4)]) =
      [(1, 2), (3, 4)].map (pairSession "K" "A" "1.2.3.4") :=
  ⟨by decide, wg_C1.1 "K" "A" "1.2.3.4" [(1, 2), (3, 4)] (by decide)⟩

theorem wg_C8_witness :
    (∀ e ∈ [(⟨5, "DISCONNECT", "K", "N", "10.0.0.1"⟩ : Entry),
            (⟨7, "DISCONNECT", "K", "N", "10.0.0.1"⟩ : Entry)],
        isDisconnectEvent e.event = true) ∧
    calcSessions [(⟨5, "DISCONNECT", "K", "N", "10.0.0.1"⟩ : Entry),
                  (⟨7, "DISCONNECT", "K", "N", "10.0.0.1"⟩ : Entry)] = [] :=
  ⟨by decide, wg_C8.2 _ (by decide)⟩

/-! Claim C9.  Connected states always carry a start time and a start
endpoint, so the "N/A" fallbacks of the output rows never fire. -/

theorem lookupState_WF (m : StateMap) (k : String)
    (hm : ∀ p ∈ m, StateWF p.2) : StateWF (lookupState m k) := by
  induction m with
  | nil =>
    intro h
    have hcl : ("disconnected" : String) = "connected" := h
    exact absurd hcl (by decide)
  | cons q rest ih =>
    obtain ⟨k1, st1⟩ := q
    by_cases h : k1 = k
    · simpa [lookupState, h] using hm (k1, st1) (List.mem_cons_self _ _)
    · simp only [lookupState, if_neg h]
      exact ih (fun p hp => hm p (List.mem_cons_of_mem _ hp))

theorem stepEntry_WF (st : PeerState) (e : Entry) (hWF : StateWF st)
    (hep : e.endpoint ≠ "") :
    StateWF (stepEntry st e).1 ∧
    ∀ s ∈ (stepEntry st e).2, s.sessionStart ≠ none ∧ s.endpointIP ≠ none := by
  rcases stepEntry_split st e with ⟨hc, hd, heq⟩ | ⟨hc, hdc, hcon, heq⟩ | heq <;> rw [heq]
  · constructor
    · intro _
      exact ⟨⟨e.timestamp, rfl⟩, ⟨e.endpoint, rfl, hep⟩⟩
    · simp
  · obtain ⟨⟨t, ht⟩, ⟨ip, hip, hipne⟩⟩ := hWF hcon
    constructor
    · intro h
      have hcl : ("disconnected" : String) = "connected" := h
      exact absurd hcl (by decide)
    · intro s hs
      simp at hs
      rw [hs]
      constructor
      · show st.session_start_time ≠ none
        rw [ht]
        simp
      · show pyOr st.session_start_ip ≠ none
        rw [hip]
        simp [pyOr, hipne]
  · constructor
    · intro h
      rw [nameUpd_status] at h
      obtain ⟨⟨t, ht⟩, ⟨ip, hip, hipne⟩⟩ := hWF h
      exact ⟨⟨t, by rw [nameUpd_start]; exact ht⟩,
             ⟨ip, by rw [nameUpd_ip]; exact hip, hipne⟩⟩
    · simp

theorem processEntries_WF (es : List Entry) :
    ∀ (m : StateMap), (∀ p ∈ m, StateWF p.2) → (∀ e ∈ es, e.endpoint ≠ "") →
      (∀ p ∈ (processEntries m es).1, StateWF p.2) ∧
      (∀ s ∈ (processEntries m es).2, s.sessionStart ≠ none ∧ s.endpointIP ≠ none) := by
  induction es with
  | nil =>
    intro m hm _
    exact ⟨hm, by simp⟩
  | cons e rest ih =>
    intro m hm hes
    have hep : e.endpoint ≠ "" := hes e (List.mem_cons_self _ _)
    obtain ⟨hWF1, hout1⟩ :=
      stepEntry_WF (lookupState m e.peer_key) e (lookupState_WF m _ hm) hep
    have hm2 : ∀ p ∈ setState m e.peer_key (stepEntry (lookupState m e.peer_key) e).1,
        StateWF p.2 := by
      intro p hp
      rcases mem_setState _ _ _ p hp with h1 | h1
      · rw [h1]
        exact hWF1
      · exact hm p h1
    obtain ⟨ha, hb⟩ := ih _ hm2 (fun e2 he2 => hes e2 (List.mem_cons_of_mem _ he2))
    rw [processEntries_cons]
    refine ⟨ha, ?_⟩
    intro s hs
    rcases List.mem_append.mp hs with h1 | h1
    · exact hout1 s h1
    · exact hb s h1

theorem finalize_WF (m : StateMap) (w : Option Int)
    (hm : ∀ p ∈ m, StateWF p.2) :
    ∀ s ∈ finalize m w, s.sessionStart ≠ none ∧ s.endpointIP ≠ none := by
  intro s hs
  obtain ⟨p, hp, hcon, hsp⟩ := (mem_finalize m w s).mp hs
  obtain ⟨⟨t, ht⟩, ⟨ip, hip, hipne⟩⟩ := hm p hp hcon
  rw [hsp]
  constructor
  · show p.2.session_start_time ≠ none
    rw [ht]
    simp
  · show pyOr p.2.session_start_ip ≠ none
    rw [hip]
    simp [pyOr, hipne]

/-- C9: from a well-formed state map, at every point of the
reconstruction every "connected" peer state carries an actual session
start time and a non-falsy start endpoint, and consequently every
emitted session row — completed or ongoing — has an actual start
timestamp and endpoint, never the "N/A" fallbacks, provided (as the line
parser's `Endpoint=(\S+)` group guarantees) event endpoints are
non-empty. -/
theorem wg_C9 :
    (∀ (m : StateMap) (es : List Entry),
        (∀ p ∈ m, StateWF p.2) → (∀ e ∈ es, e.endpoint ≠ "") →
        (∀ p ∈ (processEntries m es).1, StateWF p.2) ∧
        (∀ s ∈ (processEntries m es).2,
            s.sessionStart ≠ none ∧ s.endpointIP ≠ none)) ∧
    (∀ es : List Entry, (∀ e ∈ es, e.endpoint ≠ "") →
        ∀ s ∈ calcSessions es, s.sessionStart ≠ none ∧ s.endpointIP ≠ none) := by
  constructor
  · intro m es hm hes
    exact processEntries_WF es m hm hes
  · intro es hes s hs
    cases hn : es with
    | nil =>
      rw [hn] at hs
      have hcn : calcSessions [] = [] := rfl
      rw [hcn] at hs
      exact absurd hs (List.not_mem_nil s)
    | cons e0 es2 =>
      have hne : es ≠ [] := by rw [hn]; exact List.cons_ne_nil _ _
      rw [calcSessions_eq es hne] at hs
      have hes2 : ∀ e ∈ sortEntries es, e.endpoint ≠ "" :=
        fun e he => hes e ((mem_sortEntries e es).mp he)
      obtain ⟨hmapWF, houtWF⟩ := processEntries_WF (sortEntries es) [] (by simp) hes2
      rcases List.mem_append.mp hs with h1 | h1
      · exact houtWF s h1
      · exact finalize_WF _ _ hmapWF s h1

theorem wg_C9_witness :
    (∀ e ∈ [exC5connect, exC5disconnect], e.endpoint ≠ "") ∧
    ∀ s ∈ calcSessions [exC5connect, exC5disconnect],
      s.sessionStart ≠ none ∧ s.endpointIP ≠ none :=
  ⟨by decide, wg_C9.2 [exC5connect, exC5disconnect] (by decide)⟩

/-! Claim C2.  The global open-session watermark. -/

theorem finalize_cons (k1 : String) (st1 : PeerState) (rest : StateMap)
    (w : Option Int) :
    finalize ((k1, st1) :: rest) w =
      (if st1.status = "connected" then [mkOngoing k1 st1 w] else []) ++
        finalize rest w := by
  unfold finalize
  rw [List.filterMap_cons]
  by_cases hcon : st1.status = "connected" <;> simp [hcon]

/-- Restriction of the finalization output to one peer key: exactly the
one ongoing session of that peer when it ended the run connected. -/
theorem finalize_filter (w : Option Int) (k : String) :
    ∀ (m : StateMap), (m.map Prod.fst).Nodup →
      (finalize m w).filter (fun s => s.peerKey == k) =
        if (lookupState m k).status = "connected"
        then [mkOngoing k (lookupState m k) w] else [] := by
  intro m
  induction m with
  | nil =>
    intro _
    have h0 : (lookupState ([] : StateMap) k).status = "disconnected" := rfl
    rw [h0, if_neg (by decide)]
    rfl
  | cons q rest ih =>
    intro hnd
    obtain ⟨k1, st1⟩ := q
    rw [List.map_cons, List.nodup_cons] at hnd
    rw [finalize_cons, List.filter_append]
    by_cases hk : k1 = k
    · subst hk
      have hlook : lookupState ((k1, st1) :: rest) k1 = st1 := by simp [lookupState]
      rw [hlook]
      have hrestnil : (finalize rest w).filter (fun s => s.peerKey == k1) = [] := by
        rw [List.filter_eq_nil_iff]
        intro s hs hbeq
        have heq : s.peerKey = k1 := by simpa using hbeq
        exact hnd.1 (heq ▸ finalize_keys rest w s hs)
      rw [hrestnil]
      by_cases hcon : st1.status = "connected"
      · rw [if_pos hcon]
        simp
      · rw [if_neg hcon]
        simp
    · have hlook : lookupState ((k1, st1) :: rest) k = lookupState rest k := by
        simp [lookupState, hk]
      rw [hlook]
      have hhead : ((if st1.status = "connected" then [mkOngoing k1 st1 w] else []).filter
          (fun s => s.peerKey == k)) = [] := by
        by_cases hcon : st1.status = "connected" <;> simp [hcon, hk]
      rw [hhead, List.nil_append]
      exact ih hnd.2

/-- A connected map entry contributes exactly one ongoing session of its
key to the finalization output. -/
theorem countP_finalize_key (m : StateMap) (w : Option Int)
    (p : String × PeerState) (hnd : (m.map Prod.fst).Nodup) (hp : p ∈ m)
    (hcon : p.2.status = "connected") :
    (finalize m w).countP (fun s => s.isOngoing && s.peerKey == p.1) = 1 := by
  have hcong : (finalize m w).countP (fun s => s.isOngoing && s.peerKey == p.1)
      = (finalize m w).countP (fun s => s.peerKey == p.1) := by
    apply List.countP_congr
    intro s hs
    obtain ⟨q, hq, hqc, hsq⟩ := (mem_finalize m w s).mp hs
    have hog : s.isOngoing = true := by rw [hsq]; rfl
    rw [hog, Bool.true_and]
  rw [hcong, List.countP_eq_length_filter, finalize_filter w p.1 m hnd]
  rw [if_pos (by rw [lookupState_eq_of_mem m p hnd hp]; exact hcon)]
  rfl

/-- C2: after a non-empty timestamp-ordered stream is exhausted, every
ongoing session's end marker embeds the timestamp of the last event of
the entire stream (one global watermark), every peer left connected
yields exactly one such open session, and an empty filtered stream
yields no sessions at all. -/
theorem wg_C2 :
    (∀ es : List Entry, es ≠ [] → tsSorted es →
        (∀ s ∈ calcSessions es, s.isOngoing = true →
            s.sessionEnd = (es.getLast?).map (fun e => e.timestamp)) ∧
        (∀ p ∈ (processEntries [] es).1, p.2.status = "connected" →
            (calcSessions es).countP
              (fun s => s.isOngoing && s.peerKey == p.1) = 1)) ∧
    calcSessions [] = [] := by
  constructor
  · intro es hne hsort
    rw [calcSessions_eq es hne, sortEntries_eq_of_sorted es hsort]
    constructor
    · intro s hs hog
      rcases List.mem_append.mp hs with h1 | h1
      · have hf := processEntries_out_not_ongoing [] es s h1
        rw [hf] at hog
        exact absurd hog (by decide)
      · obtain ⟨q, hq, hqc, hsq⟩ := (mem_finalize _ _ s).mp h1
        rw [hsq, mkOngoing_sessionEnd]
    · intro p hp hcon
      rw [List.countP_append]
      have h0 : (processEntries [] es).2.countP
          (fun s => s.isOngoing && s.peerKey == p.1) = 0 := by
        rw [List.countP_eq_zero]
        intro s hs
        rw [processEntries_out_not_ongoing [] es s hs]
        simp
      rw [h0, countP_finalize_key (processEntries [] es).1 _ p
        (processEntries_keys_nodup [] es (by simp)) hp hcon]
  · rfl

theorem wg_C2_witness :
    ([(⟨1, "CONNECT", "K", "A", "e1"⟩ : Entry),
      (⟨2, "CONNECT", "L", "B", "e2"⟩ : Entry),
      (⟨5, "DISCONNECT", "L", "B", "e2"⟩ : Entry)] ≠ ([] : List Entry)) ∧
    tsSorted [(⟨1, "CONNECT", "K", "A", "e1"⟩ : Entry),
      (⟨2, "CONNECT", "L", "B", "e2"⟩ : Entry),
      (⟨5, "DISCONNECT", "L", "B", "e2"⟩ : Entry)] ∧
    (∀ s ∈ calcSessions [(⟨1, "CONNECT", "K", "A", "e1"⟩ : Entry),
        (⟨2, "CONNECT", "L", "B", "e2"⟩ : Entry),
        (⟨5, "DISCONNECT", "L", "B", "e2"⟩ : Entry)],
      s.isOngoing = true →
      s.sessionEnd = ([(⟨1, "CONNECT", "K", "A", "e1"⟩ : Entry),
        (⟨2, "CONNECT", "L", "B", "e2"⟩ : Entry),
        (⟨5, "DISCONNECT", "L", "B", "e2"⟩ : Entry)].getLast?).map
          (fun e => e.timestamp)) :=
  ⟨by decide, by decide, (wg_C2.1 _ (by decide) (by decide)).1⟩

/-! Claim C10.  Per-peer sessions are chronologically ordered and
non-overlapping. -/

@[simp]
theorem connState_status (st : PeerState) (e : Entry) :
    (connState st e).status = "connected" := rfl

@[simp]
theorem connState_start (st : PeerState) (e : Entry) :
    (connState st e).session_start_time = some e.timestamp := rfl

@[simp]
theorem discState_status (st : PeerState) (e : Entry) :
    (discState st e).status = "disconnected" := rfl

@[simp]
theorem discSession_sessionStart (st : PeerState) (e : Entry) :
    (discSession st e).sessionStart = st.session_start_time := rfl

@[simp]
theorem discSession_sessionEnd (st : PeerState) (e : Entry) :
    (discSession st e).sessionEnd = some e.timestamp := rfl

theorem pendLB_conn (st : PeerState) (hi : Int) (h : st.status = "connected") :
    pendLB st hi = pendStart st := by
  unfold pendLB
  rw [if_pos h]

theorem pendLB_not_conn (st : PeerState) (hi : Int) (h : st.status ≠ "connected") :
    pendLB st hi = hi := by
  unfold pendLB
  rw [if_neg h]

/-- Single-peer loop invariant: over a sorted stream of one peer's
events bounded below by `hi` and above by `ub`, starting from a state
whose pending start (if connected) is at most `hi`, the emitted sessions
are well-formed intervals inside the bounds, pairwise ordered
end-before-start, all starting at or after the state's pending lower
bound; and the final state's pending start (if still connected) is at
most `ub` and at least every emitted end. -/
theorem peer_inv (k : String) :
    ∀ (es : List Entry) (st : PeerState) (hi ub : Int),
      (∀ e ∈ es, e.peer_key = k) →
      tsSorted es →
      (∀ e ∈ es, hi ≤ e.timestamp) →
      (∀ e ∈ es, e.timestamp ≤ ub) →
      hi ≤ ub →
      okSt st hi →
      (∀ s ∈ (processEntries [(k, st)] es).2,
          s.sessionStart.isSome = true ∧ s.sessionEnd.isSome = true ∧
          startVal s ≤ endVal s ∧ endVal s ≤ ub) ∧
      ((processEntries [(k, st)] es).2).Pairwise
        (fun s1 s2 => endVal s1 ≤ startVal s2) ∧
      (∀ s ∈ (processEntries [(k, st)] es).2, pendLB st hi ≤ startVal s) ∧
      okSt (lookupState (processEntries [(k, st)] es).1 k) ub ∧
      ((lookupState (processEntries [(k, st)] es).1 k).status = "connected" →
        (∀ s ∈ (processEntries [(k, st)] es).2,
            endVal s ≤ pendStart (lookupState (processEntries [(k, st)] es).1 k)) ∧
        pendLB st hi ≤ pendStart (lookupState (processEntries [(k, st)] es).1 k)) := by
  intro es
  induction es with
  | nil =>
    intro st hi ub _ _ _ _ hhiub hok
    have hl : lookupState (processEntries [(k, st)] []).1 k = st := by simp
    refine ⟨by simp, by simp, by simp, ?_, ?_⟩
    · rw [hl]
      intro hcon
      obtain ⟨a, ha, hle⟩ := hok hcon
      exact ⟨a, ha, le_trans hle hhiub⟩
    · rw [hl]
      intro hcon
      refine ⟨by simp, ?_⟩
      exact le_of_eq (pendLB_conn st hi hcon)
  | cons e rest ih =>
    intro st hi ub hk hsort hlb hub hhiub hok
    have hek : e.peer_key = k := hk e (List.mem_cons_self _ _)
    unfold tsSorted at hsort
    rw [List.pairwise_cons] at hsort
    obtain ⟨hhead, hsort2⟩ := hsort
    have hts : hi ≤ e.timestamp := hlb e (List.mem_cons_self _ _)
    have htub : e.timestamp ≤ ub := hub e (List.mem_cons_self _ _)
    have hkrest : ∀ e2 ∈ rest, e2.peer_key = k :=
      fun e2 h => hk e2 (List.mem_cons_of_mem _ h)
    have hubrest : ∀ e2 ∈ rest, e2.timestamp ≤ ub :=
      fun e2 h => hub e2 (List.mem_cons_of_mem _ h)
    rw [processEntries_cons, hek, lookupState_singleton, setState_singleton]
    rcases stepEntry_split st e with ⟨hc, hd, heq⟩ | ⟨hc, hdc, hcon0, heq⟩ | heq <;>
      rw [heq] <;> dsimp only
    · -- CONNECT from disconnected
      have hokC : okSt (connState st e) e.timestamp :=
        fun _ => ⟨e.timestamp, rfl, le_refl _⟩
      obtain ⟨I1, I2, I3, I4, I5⟩ :=
        ih (connState st e) e.timestamp ub hkrest hsort2 hhead hubrest htub hokC
      have hstne : st.status ≠ "connected" := by rw [hd]; decide
      have hplb : pendLB st hi = hi := pendLB_not_conn st hi hstne
      have hplbC : pendLB (connState st e) e.timestamp = e.timestamp := by
        rw [pendLB_conn _ _ rfl]
        rfl
      refine ⟨by simpa using I1, by simpa using I2, ?_, I4, ?_⟩
      · intro s hs
        rw [hplb]
        have h3 := I3 s (by simpa using hs)
        rw [hplbC] at h3
        exact le_trans hts h3
      · intro hcon
        obtain ⟨I5a, I5b⟩ := I5 hcon
        rw [hplbC] at I5b
        refine ⟨fun s hs => I5a s (by simpa using hs), ?_⟩
        rw [hplb]
        exact le_trans hts I5b
    · -- DISCONNECT from connected
      obtain ⟨a, ha, hahi⟩ := hok hcon0
      have hokD : okSt (discState st e) e.timestamp := by
        intro h
        have hcl : ("disconnected" : String) = "connected" := h
        exact absurd hcl (by decide)
      obtain ⟨I1, I2, I3, I4, I5⟩ :=
        ih (discState st e) e.timestamp ub hkrest hsort2 hhead hubrest htub hokD
      have hplbD : pendLB (discState st e) e.timestamp = e.timestamp :=
        pendLB_not_conn _ _ (by rw [discState_status]; decide)
      have hplb : pendLB st hi = a := by
        rw [pendLB_conn st hi hcon0]
        unfold pendStart
        rw [ha]
        rfl
      have hSs : startVal (discSession st e) = a := by
        unfold startVal
        rw [discSession_sessionStart, ha]
        rfl
      have hSe : endVal (discSession st e) = e.timestamp := by
        unfold endVal
        rw [discSession_sessionEnd]
        rfl
      rw [List.singleton_append]
      refine ⟨?_, ?_, ?_, I4, ?_⟩
      · intro s hs
        rcases List.mem_cons.mp hs with h1 | h1
        · subst h1
          refine ⟨?_, ?_, ?_, ?_⟩
          · rw [discSession_sessionStart, ha]
            rfl
          · rw [discSession_sessionEnd]
            rfl
          · rw [hSs, hSe]
            exact le_trans hahi hts
          · rw [hSe]
            exact htub
        · exact I1 s h1
      · rw [List.pairwise_cons]
        refine ⟨?_, I2⟩
        intro s hs
        rw [hSe]
        have h3 := I3 s hs
        rw [hplbD] at h3
        exact h3
      · intro s hs
        rw [hplb]
        rcases List.mem_cons.mp hs with h1 | h1
        · subst h1
          rw [hSs]
        · have h3 := I3 s h1
          rw [hplbD] at h3
          exact le_trans hahi (le_trans hts h3)
      · intro hcon
        obtain ⟨I5a, I5b⟩ := I5 hcon
        rw [hplbD] at I5b
        refine ⟨?_, ?_⟩
        · intro s hs
          rcases List.mem_cons.mp hs with h1 | h1
          · subst h1
            rw [hSe]
            exact I5b
          · exact I5a s h1
        · rw [hplb]
          exact le_trans hahi (le_trans hts I5b)
    · -- no-op branches (redundant CONNECT, redundant DISCONNECT, other)
      by_cases hcon0 : st.status = "connected"
      · obtain ⟨a, ha, hahi⟩ := hok hcon0
        have hokN : okSt (nameUpd st e) e.timestamp := by
          intro _
          exact ⟨a, by rw [nameUpd_start]; exact ha, le_trans hahi hts⟩
        obtain ⟨I1, I2, I3, I4, I5⟩ :=
          ih (nameUpd st e) e.timestamp ub hkrest hsort2 hhead hubrest htub hokN
        have hplb : pendLB st hi = a := by
          rw [pendLB_conn st hi hcon0]
          unfold pendStart
          rw [ha]
          rfl
        have hplbN : pendLB (nameUpd st e) e.timestamp = a := by
          rw [pendLB_conn _ _ (by rw [nameUpd_status]; exact hcon0)]
          unfold pendStart
          rw [nameUpd_start, ha]
          rfl
        refine ⟨by simpa using I1, by simpa using I2, ?_, I4, ?_⟩
        · intro s hs
          have h3 := I3 s (by simpa using hs)
          rw [hplbN] at h3
          rw [hplb]
          exact h3
        · intro hcon
          obtain ⟨I5a, I5b⟩ := I5 hcon
          rw [hplbN] at I5b
          exact ⟨fun s hs => I5a s (by simpa using hs), by rw [hplb]; exact I5b⟩
      · have hokN : okSt (nameUpd st e) e.timestamp := by
          intro h
          rw [nameUpd_status] at h
          exact absurd h hcon0
        obtain ⟨I1, I2, I3, I4, I5⟩ :=
          ih (nameUpd st e) e.timestamp ub hkrest hsort2 hhead hubrest htub hokN
        have hplb : pendLB st hi = hi := pendLB_not_conn st hi hcon0
        have hplbN : pendLB (nameUpd st e) e.timestamp = e.timestamp :=
          pendLB_not_conn _ _ (by rw [nameUpd_status]; exact hcon0)
        refine ⟨by simpa using I1, by simpa using I2, ?_, I4, ?_⟩
        · intro s hs
          have h3 := I3 s (by simpa using hs)
          rw [hplbN] at h3
          rw [hplb]
          exact le_trans hts h3
        · intro hcon
          obtain ⟨I5a, I5b⟩ := I5 hcon
          rw [hplbN] at I5b
          exact ⟨fun s hs => I5a s (by simpa using hs),
                 by rw [hplb]; exact le_trans hts I5b⟩

/-- Projection: restricting the loop's output to one peer key gives the
run of that peer's filtered sub-stream from its own state alone, and the
same for its final state. -/
theorem processEntries_proj (k : String) :
    ∀ (es : List Entry) (m : StateMap),
      ((processEntries m es).2).filter (fun s => s.peerKey == k) =
        (processEntries [(k, lookupState m k)]
          (es.filter (fun e2 => e2.peer_key == k))).2 ∧
      lookupState (processEntries m es).1 k =
        lookupState (processEntries [(k, lookupState m k)]
          (es.filter (fun e2 => e2.peer_key == k))).1 k := by
  intro es
  induction es with
  | nil =>
    intro m
    exact ⟨rfl, by simp⟩
  | cons e rest ih =>
    intro m
    by_cases hek : e.peer_key = k
    · have hbeq : (e.peer_key == k) = true := by simp [hek]
      rw [processEntries_cons, hek, List.filter_cons, if_pos hbeq,
        processEntries_cons, hek, lookupState_singleton, setState_singleton]
      dsimp only
      rw [List.filter_append]
      have hm'k : lookupState (setState m k (stepEntry (lookupState m k) e).1) k =
          (stepEntry (lookupState m k) e).1 := lookupState_set_self m k _
      constructor
      · have hout : ((stepEntry (lookupState m k) e).2).filter
            (fun s => s.peerKey == k) = (stepEntry (lookupState m k) e).2 := by
          rw [List.filter_eq_self]
          intro s hs
          rw [stepEntry_out_key _ _ s hs, hek]
          simp
        rw [hout]
        have hih := (ih (setState m k (stepEntry (lookupState m k) e).1)).1
        rw [hm'k] at hih
        rw [hih]
      · have hih := (ih (setState m k (stepEntry (lookupState m k) e).1)).2
        rw [hm'k] at hih
        exact hih
    · have hbeq : (e.peer_key == k) = false := by simp [hek]
      rw [processEntries_cons, List.filter_cons, if_neg (by simp [hbeq])]
      dsimp only
      rw [List.filter_append]
      have hout0 : ((stepEntry (lookupState m e.peer_key) e).2).filter
          (fun s => s.peerKey == k) = [] := by
        rw [List.filter_eq_nil_iff]
        intro s hs hsb
        have hkey := stepEntry_out_key _ _ s hs
        rw [hkey] at hsb
        exact hek (by simpa using hsb)
      rw [hout0, List.nil_append]
      have hm'k : lookupState (setState m e.peer_key
          (stepEntry (lookupState m e.peer_key) e).1) k = lookupState m k :=
        lookupState_set_other m e.peer_key k _ hek
      have hih1 := (ih (setState m e.peer_key (stepEntry (lookupState m e.peer_key) e).1)).1
      have hih2 := (ih (setState m e.peer_key (stepEntry (lookupState m e.peer_key) e).1)).2
      rw [hm'k] at hih1 hih2
      exact ⟨hih1, hih2⟩

/-- C10: on a timestamp-sorted stream, the sessions reported for any one
peer have actual start and end instants with start ≤ end, and they are
pairwise chronologically ordered: every earlier-emitted session of the
peer (completed sessions in emission order, then its ongoing session, if
any) ends no later than the start of every later one — so the peer's
session intervals never overlap. -/
theorem wg_C10 :
    ∀ es : List Entry, tsSorted es → ∀ k : String,
      (∀ s ∈ (calcSessions es).filter (fun s => s.peerKey == k),
          s.sessionStart.isSome = true ∧ s.sessionEnd.isSome = true ∧
          startVal s ≤ endVal s) ∧
      ((calcSessions es).filter (fun s => s.peerKey == k)).Pairwise
        (fun s1 s2 => endVal s1 ≤ startVal s2) := by
  intro es hsort k
  cases es with
  | nil =>
    have h0 : calcSessions [] = [] := rfl
    rw [h0]
    simp
  | cons e0 es2 =>
    have hne : e0 :: es2 ≠ [] := List.cons_ne_nil _ _
    rw [calcSessions_eq _ hne, sortEntries_eq_of_sorted _ hsort]
    obtain ⟨x, hx⟩ : ∃ x, (e0 :: es2).getLast? = some x := by
      cases hgl : (e0 :: es2).getLast? with
      | some x => exact ⟨x, rfl⟩
      | none =>
        rw [List.getLast?_eq_getLast_of_ne_nil hne] at hgl
        exact absurd hgl (by simp)
    rw [hx, List.filter_append]
    obtain ⟨hproj1, hproj2⟩ := processEntries_proj k (e0 :: es2) []
    have hlook0 : lookupState ([] : StateMap) k = initialPeerState := rfl
    rw [hlook0] at hproj1 hproj2
    rw [hproj1]
    have hnd : (((processEntries [] (e0 :: es2)).1).map Prod.fst).Nodup :=
      processEntries_keys_nodup [] _ (by simp)
    rw [finalize_filter _ k _ hnd]
    have hhead : ∀ e2 ∈ e0 :: es2, e0.timestamp ≤ e2.timestamp := by
      intro e2 he2
      rcases List.mem_cons.mp he2 with h1 | h1
      · rw [h1]
      · unfold tsSorted at hsort
        exact (List.pairwise_cons.mp hsort).1 e2 h1
    have hub : ∀ e2 ∈ e0 :: es2, e2.timestamp ≤ x.timestamp :=
      timestamp_le_getLast _ x hsort hx
    have hkf : ∀ e2 ∈ (e0 :: es2).filter (fun e2 => e2.peer_key == k),
        e2.peer_key = k := by
      intro e2 he2
      have hb := (List.mem_filter.mp he2).2
      simpa using hb
    have hsf : tsSorted ((e0 :: es2).filter (fun e2 => e2.peer_key == k)) :=
      List.Pairwise.sublist (List.filter_sublist _) hsort
    have hlbf : ∀ e2 ∈ (e0 :: es2).filter (fun e2 => e2.peer_key == k),
        e0.timestamp ≤ e2.timestamp :=
      fun e2 he2 => hhead e2 (List.mem_filter.mp he2).1
    have hubf : ∀ e2 ∈ (e0 :: es2).filter (fun e2 => e2.peer_key == k),
        e2.timestamp ≤ x.timestamp :=
      fun e2 he2 => hub e2 (List.mem_filter.mp he2).1
    have hhiub : e0.timestamp ≤ x.timestamp := hub e0 (List.mem_cons_self _ _)
    have hok0 : okSt initialPeerState e0.timestamp := by
      intro h
      have hcl : ("disconnected" : String) = "connected" := h
      exact absurd hcl (by decide)
    obtain ⟨I1, I2, I3, I4, I5⟩ :=
      peer_inv k ((e0 :: es2).filter (fun e2 => e2.peer_key == k))
        initialPeerState e0.timestamp x.timestamp hkf hsf hlbf hubf hhiub hok0
    rw [← hproj2] at I4 I5
    by_cases hcfin : (lookupState (processEntries [] (e0 :: es2)).1 k).status = "connected"
    · rw [if_pos hcfin]
      obtain ⟨a, ha, hax⟩ := I4 hcfin
      obtain ⟨I5a, I5b⟩ := I5 hcfin
      have hpend : pendStart (lookupState (processEntries [] (e0 :: es2)).1 k) = a := by
        unfold pendStart
        rw [ha]
        rfl
      rw [hpend] at I5a
      have hOs : (mkOngoing k (lookupState (processEntries [] (e0 :: es2)).1 k)
          (Option.map (fun e => e.timestamp) (some x))).sessionStart = some a := ha
      have hOsv : startVal (mkOngoing k (lookupState (processEntries [] (e0 :: es2)).1 k)
          (Option.map (fun e => e.timestamp) (some x))) = a := by
        unfold startVal
        rw [hOs]
        rfl
      have hOev : endVal (mkOngoing k (lookupState (processEntries [] (e0 :: es2)).1 k)
          (Option.map (fun e => e.timestamp) (some x))) = x.timestamp := by
        unfold endVal
        rw [mkOngoing_sessionEnd]
        rfl
      constructor
      · intro s hs
        rcases List.mem_append.mp hs with h1 | h1
        · obtain ⟨j1, j2, j3, _⟩ := I1 s h1
          exact ⟨j1, j2, j3⟩
        · have hs1 : s = mkOngoing k (lookupState (processEntries [] (e0 :: es2)).1 k)
              (Option.map (fun e => e.timestamp) (some x)) := by simpa using h1
          rw [hs1]
          refine ⟨?_, ?_, ?_⟩
          · rw [hOs]
            rfl
          · rw [mkOngoing_sessionEnd]
            rfl
          · rw [hOsv, hOev]
            exact hax
      · rw [List.pairwise_append]
        refine ⟨I2, by simp, ?_⟩
        intro s hs o ho
        have ho1 : o = mkOngoing k (lookupState (processEntries [] (e0 :: es2)).1 k)
            (Option.map (fun e => e.timestamp) (some x)) := by simpa using ho
        rw [ho1, hOsv]
        exact I5a s hs
    · rw [if_neg hcfin, List.append_nil]
      constructor
      · intro s hs
        obtain ⟨j1, j2, j3, _⟩ := I1 s hs
        exact ⟨j1, j2, j3⟩
      · exact I2

theorem wg_C10_witness :
    tsSorted [(⟨1, "CONNECT", "K", "A", "e"⟩ : Entry),
              (⟨2, "DISCONNECT", "K", "A", "e"⟩ : Entry),
              (⟨4, "CONNECT", "K", "A", "e"⟩ : Entry)] ∧
    ((calcSessions [(⟨1, "CONNECT", "K", "A", "e"⟩ : Entry),
              (⟨2, "DISCONNECT", "K", "A", "e"⟩ : Entry),
              (⟨4, "CONNECT", "K", "A", "e"⟩ : Entry)]).filter
        (fun s => s.peerKey == "K")).Pairwise
      (fun s1 s2 => endVal s1 ≤ startVal s2) :=
  ⟨by decide, (wg_C10 [(⟨1, "CONNECT", "K", "A", "e"⟩ : Entry),
              (⟨2, "DISCONNECT", "K", "A", "e"⟩ : Entry),
              (⟨4, "CONNECT", "K", "A", "e"⟩ : Entry)] (by decide) "K").2⟩

end WgReport
